import Mathlib

/-!
Verification of the document structure & navigation engine of the VDATA
editor (static/js/viz.js): structural scanner, outline builder, folding
range resolver, active-item tracker, schema/doc name resolver, update
scheduler, and persisted-schema restore.

The JavaScript source is shallowly embedded: lines of the document are a
`List String` (the host splits the editor text on line breaks), JS numbers
used as counters are `Int`/`Nat`, regular-expression matches are spelled
out as executable leftmost-match scanners faithful to the exact patterns in
the source, and the DOM/localStorage side effects are modelled as explicit
state (`EditorState`) plus effect counters (`Effects`).
-/

namespace Viz

/-- Bracket classification used by both `buildOutline` (viz.js lines
722-730) and `provideFoldingRanges` (viz.js lines 306-321): the open
brackets are the four characters braces, square, round and angle. -/
def isOpenBracket (c : Char) : Bool :=
  c = Char.ofNat 123 || c = '[' || c = '(' || c = '<'

/-- Close brackets recognized by the scanner. -/
def isCloseBracket (c : Char) : Bool :=
  c = Char.ofNat 125 || c = ']' || c = ')' || c = '>'

/-- One character step of the depth counter: increment on any open bracket,
decrement floored at zero (`Math.max(0, braceLevel - 1)`) on any close
bracket, ignore other characters (viz.js lines 723-730). -/
def scanStep (lvl : Int) (c : Char) : Int :=
  if isOpenBracket c then lvl + 1
  else if isCloseBracket c then max 0 (lvl - 1)
  else lvl

/-- Depth after processing every character of one line, left to right. -/
def scanLineLevel (lvl : Int) (line : String) : Int :=
  line.data.foldl scanStep lvl

/-- Cumulative depth after processing the first `n` lines of the document,
starting from zero. -/
def levelAfter (lines : List String) (n : Nat) : Int :=
  (lines.take n).foldl scanLineLevel 0

/-- Whitespace class of the JavaScript regex `\s` restricted to the ASCII
characters that can occur in an editor line. -/
def isSpaceChar (c : Char) : Bool :=
  c = ' ' || c = '\t' || c = '\n' || c = '\r' || c = '\x0b' || c = '\x0c'

/-- Word characters of the JavaScript regex class `\w`: ASCII letters,
digits and underscore. -/
def isWordChar (c : Char) : Bool :=
  c.isAlpha || c.isDigit || c = '_'

/-- First character of the generic key pattern `[A-Za-z_]`. -/
def isIdentStartChar (c : Char) : Bool :=
  c.isAlpha || c = '_'

/-- Continuation characters of the generic key pattern `[\w\.]`. -/
def isKeyChar (c : Char) : Bool :=
  isWordChar c || c = '.'

/-- Drop an expected literal prefix, or fail. -/
def dropPrefixChars : List Char → List Char → Option (List Char)
  | [], s => some s
  | _ :: _, [] => none
  | p :: ps, c :: cs => if c = p then dropPrefixChars ps cs else none

/-- Attempt to match the regex `_class\s*=\s*"([^"]+)"` at the head of the
character list, returning the captured quoted value. The quantifiers are
deterministic here because whitespace, `=` and `"` never overlap with the
preceding character classes. -/
def matchClassAt (s : List Char) : Option String :=
  match dropPrefixChars "_class".data s with
  | none => none
  | some s1 =>
    match s1.dropWhile isSpaceChar with
    | [] => none
    | c :: s3 =>
      if c = '=' then
        match s3.dropWhile isSpaceChar with
        | [] => none
        | q :: s5 =>
          if q = '"' then
            match s5.takeWhile (fun ch => ch ≠ '"') with
            | [] => none
            | c0 :: content =>
              match s5.drop (c0 :: content).length with
              | [] => none
              | q2 :: _ =>
                if q2 = '"' then some (String.mk (c0 :: content)) else none
          else none
      else none

/-- Leftmost match of the unanchored declaration pattern: try every start
position from left to right, as `String.prototype.match` does. -/
def classMatchAux : List Char → Option String
  | [] => none
  | c :: rest =>
    match matchClassAt (c :: rest) with
    | some v => some v
    | none => classMatchAux rest

/-- Embedding of `line.match(/_class\s*=\s*"([^"]+)"/)` (viz.js line 733),
returning the first capture group. -/
def classMatch (line : String) : Option String :=
  classMatchAux line.data

/-- Embedding of `line.match(/^\s*([A-Za-z_][\w\.]*)\s*=/)` (viz.js line
732), returning the captured identifier. The pattern is anchored; each
greedy quantifier is deterministic because its character class is disjoint
from what must follow. -/
def keyMatch (line : String) : Option String :=
  match line.data.dropWhile isSpaceChar with
  | [] => none
  | c :: rest =>
    if isIdentStartChar c then
      match (rest.dropWhile isKeyChar).dropWhile isSpaceChar with
      | [] => none
      | e :: _ =>
        if e = '=' then some (String.mk (c :: rest.takeWhile isKeyChar))
        else none
    else none

/-- Outline entry produced by `buildOutline` (viz.js lines 735-751). -/
structure OutlineItem where
  label : String
  shortLabel : String
  line : Nat
  depth : Int
  deriving Repr, DecidableEq

/-- Body of the per-line loop of `buildOutline` (viz.js lines 718-752):
first adjust the brace level over the whole line, then classify the line,
declaration pattern taking priority over the generic key pattern. `i` is
the zero-based line index. -/
def buildOutlineGo : Int → Nat → List String → List OutlineItem
  | _, _, [] => []
  | lvl, i, line :: rest =>
    let lineNumber := i + 1
    let lvl2 := scanLineLevel lvl line
    let items :=
      match classMatch line with
      | some v => [⟨"_class = " ++ v, v, lineNumber, 0⟩]
      | none =>
        match keyMatch line with
        | some k => [⟨k, k, lineNumber, min lvl2 2⟩]
        | none => []
    items ++ buildOutlineGo lvl2 (i + 1) rest

/-- Embedding of `buildOutline` (viz.js lines 707-757): full re-scan of the
document lines, producing the outline in document order. -/
def buildOutline (lines : List String) : List OutlineItem :=
  buildOutlineGo 0 0 lines

/-- The only folding kind the resolver ever emits
(`monaco.languages.FoldingRangeKind.Region`). -/
inductive FoldKind where
  | region
  deriving Repr, DecidableEq

/-- Folding range emitted by `provideFoldingRanges` (viz.js lines 314-318);
`start` and `endLine` are 1-based line numbers. -/
structure FoldRange where
  start : Nat
  endLine : Nat
  kind : FoldKind
  deriving Repr, DecidableEq

/-- One character step of the folding scan (viz.js lines 307-321): push
`(char, line)` on any open bracket; on any close bracket pop (if the stack
is nonempty) and emit a range when the popped open line is strictly before
the current line. -/
def foldStep (line : Nat) (st : List (Char × Nat) × List FoldRange) (ch : Char) :
    List (Char × Nat) × List FoldRange :=
  if isOpenBracket ch then ((ch, line) :: st.1, st.2)
  else if isCloseBracket ch then
    match st.1 with
    | [] => st
    | top :: rest =>
      if top.2 < line then (rest, st.2 ++ [⟨top.2, line, FoldKind.region⟩])
      else (rest, st.2)
  else st

/-- Folding scan over one line of text. -/
def foldLine (line : Nat) (st : List (Char × Nat) × List FoldRange) (text : String) :
    List (Char × Nat) × List FoldRange :=
  text.data.foldl (foldStep line) st

/-- Folding scan over the remaining document lines; `n` is the 1-based
number of the next line. -/
def foldDoc : Nat → (List (Char × Nat) × List FoldRange) → List String →
    List (Char × Nat) × List FoldRange
  | _, st, [] => st
  | n, st, l :: ls => foldDoc (n + 1) (foldLine n st l) ls

/-- Embedding of `provideFoldingRanges` (viz.js lines 298-327): the ranges
accumulated by the scan; entries left on the stack at end of document are
discarded. -/
def provideFoldingRanges (lines : List String) : List FoldRange :=
  (foldDoc 1 ([], []) lines).2

/-- Attempt to match the regex `"([^"]+)"` at the head of the character
list, returning the captured content between the quotes (nonempty). -/
def matchQuotedAt : List Char → Option String
  | [] => none
  | q :: s =>
    if q = '"' then
      match s.takeWhile (fun ch => ch ≠ '"') with
      | [] => none
      | c0 :: content =>
        match s.drop (c0 :: content).length with
        | [] => none
        | q2 :: _ => if q2 = '"' then some (String.mk (c0 :: content)) else none
    else none

/-- Leftmost match of the generic quoted-string pattern, trying every start
position from left to right. -/
def firstQuotedAux : List Char → Option String
  | [] => none
  | c :: rest =>
    match matchQuotedAt (c :: rest) with
    | some v => some v
    | none => firstQuotedAux rest

/-- Embedding of `lineText.match(/"([^"]+)"/)` (viz.js line 869): the first
quoted string of the line. -/
def firstQuoted (line : String) : Option String :=
  firstQuotedAux line.data

/-- Every quoted-string match available on the line, one per start position
where the pattern matches; used to state that a line contains some quoted
string. -/
def quotedOccurrences (line : String) : List String :=
  line.data.tails.filterMap matchQuotedAt

/-- Substring test used to embed `String.prototype.includes`. -/
def containsSub (s pat : String) : Bool :=
  s.data.tails.any (fun t => pat.data.isPrefixOf t)

/-- Allow-list applied to a quoted candidate (viz.js lines 872-876): ends
with "VData", starts with "CAbility_", or contains "CitadelAbility". -/
def allowListed (candidate : String) : Bool :=
  "VData".data.isSuffixOf candidate.data ||
    "CAbility_".data.isPrefixOf candidate.data ||
    containsSub candidate "CitadelAbility"

/-- Pure part of `updateSchemaFromCursor` (viz.js lines 858-882): the
declaration pattern value if present, otherwise the first quoted string of
the line when it passes the allow-list, otherwise none. -/
def schemaNameFromLine (lineText : String) : Option String :=
  match classMatch lineText with
  | some v => some v
  | none =>
    match firstQuoted lineText with
    | some candidate => if allowListed candidate then some candidate else none
    | none => none

/-- Hexadecimal digit (uppercase) of a value below 16. -/
def hexDigitUpper (n : Nat) : Char :=
  if n < 10 then Char.ofNat (48 + n) else Char.ofNat (55 + n)

/-- UTF-8 byte sequence of a code point, as `encodeURIComponent` percent
encodes non-ASCII characters byte by byte. -/
def utf8Bytes (n : Nat) : List Nat :=
  if n < 0x80 then [n]
  else if n < 0x800 then [0xC0 + n / 0x40, 0x80 + n % 0x40]
  else if n < 0x10000 then
    [0xE0 + n / 0x1000, 0x80 + (n / 0x40) % 0x40, 0x80 + n % 0x40]
  else
    [0xF0 + n / 0x40000, 0x80 + (n / 0x1000) % 0x40, 0x80 + (n / 0x40) % 0x40,
      0x80 + n % 0x40]

/-- Characters `encodeURIComponent` leaves unescaped: ASCII alphanumerics
and `- _ . ! ~ * ' ( )`. -/
def isUnreservedURIChar (c : Char) : Bool :=
  c.isAlpha || c.isDigit || c = '-' || c = '_' || c = '.' || c = '!' ||
    c = '~' || c = '*' || c = Char.ofNat 39 || c = '(' || c = ')'

/-- Percent-escape of one byte. -/
def percentByte (b : Nat) : List Char :=
  ['%', hexDigitUpper (b / 16), hexDigitUpper (b % 16)]

/-- Embedding of JavaScript `encodeURIComponent`. -/
def encodeURIComponent (s : String) : String :=
  String.mk (s.data.foldr
    (fun c acc =>
      (if isUnreservedURIChar c then [c]
       else (utf8Bytes c.toNat).foldr (fun b a => percentByte b ++ a) []) ++ acc)
    [])

/-- Documentation URL computed by `setSchemaDocs` (viz.js lines 893-894):
the fixed base address plus the percent-encoded schema name. -/
def schemaDocsUrl (schemaName : String) : String :=
  "https://deadlockmodding.pages.dev/schemas/client/" ++ encodeURIComponent schemaName

/-- Persisted record written by `persistLastSchema` (viz.js lines 912-919):
the schema name with a timestamp in epoch milliseconds. -/
structure Persisted where
  name : String
  ts : Nat
  deriving Repr, DecidableEq

/-- Schema-related state touched by the resolver: the currently displayed
schema name (`currentSchemaName`, viz.js line 88), the durable storage slot
under `LAST_SCHEMA_KEY`, and the docs panel navigation target (the URL
assigned to the iframe by `setSchemaDocs`). -/
structure EditorState where
  currentSchemaName : Option String
  stored : Option Persisted
  docsTarget : Option String
  deriving Repr, DecidableEq

/-- Count of observable side effects of one resolver invocation: storage
writes and docs navigation requests. -/
structure Effects where
  storageWrites : Nat
  navRequests : Nat
  deriving Repr, DecidableEq

/-- Embedding of `updateSchemaFromCursor` (viz.js lines 851-888) as a state
transition at time `now`: resolve a name from the cursor line's text;
return unchanged with no effects when no name resolves or the name equals
the current one; otherwise update the current name, navigate the docs panel
and persist the record. -/
def updateSchemaFromCursorStep (now : Nat) (lineText : String) (s : EditorState) :
    EditorState × Effects :=
  match schemaNameFromLine lineText with
  | none => (s, ⟨0, 0⟩)
  | some n =>
    if s.currentSchemaName = some n then (s, ⟨0, 0⟩)
    else (⟨some n, some ⟨n, now⟩, some (schemaDocsUrl n)⟩, ⟨1, 1⟩)

/-- Staleness horizon for the persisted schema record (viz.js line 70):
six hours in milliseconds. -/
def SETTINGS_TTL_MS : Nat := 6 * 60 * 60 * 1000

/-- Possible outcomes of reading the raw persisted record at session start:
the read may throw (quota, disabled storage), the key may be absent, the
payload may fail to parse as JSON, or it parses to an object whose `name`
and `ts` fields may each be missing. -/
inductive StoredRaw where
  | readFailure
  | absent
  | unparseable
  | parsed (name : Option String) (ts : Option Nat)
  deriving Repr, DecidableEq

/-- Embedding of `restoreLastSchemaFromLocal` (viz.js lines 921-934) at
time `now`: any failure, missing field, JavaScript-falsy field (empty name,
zero timestamp) or stale timestamp leaves the state untouched; otherwise
the name is restored and the docs panel navigated (storage is not
rewritten). -/
def restoreLastSchemaFromLocal (now : Nat) (raw : StoredRaw) (s : EditorState) :
    EditorState :=
  match raw with
  | .parsed (some n) (some t) =>
    if n = "" then s
    else if t = 0 then s
    else if SETTINGS_TTL_MS < now - t then s
    else { s with currentSchemaName := some n, docsTarget := some (schemaDocsUrl n) }
  | _ => s

/-- Debounce delay of the outline rebuild scheduler (viz.js line 704). -/
def OUTLINE_DEBOUNCE_MS : Nat := 300

/-- Discrete-event model of `scheduleOutlineUpdate` (viz.js lines 700-705)
driven by the edit events of `onDidChangeModelContent` (viz.js lines
368-371): `pending` is the deadline of the outstanding rebuild timer, the
list holds the strictly increasing times of the remaining edits. A pending
timer fires (one rebuild, at its deadline) when its deadline precedes the
next edit; each edit clears any still-pending timer and schedules a new one
300 ms out; a timer still pending after the last edit fires. The result is
the list of rebuild times. -/
def debounceRun : Option Nat → List Nat → List Nat
  | some d, [] => [d]
  | none, [] => []
  | pending, t :: ts =>
    (match pending with
     | some d => if d < t then [d] else []
     | none => []) ++ debounceRun (some (t + OUTLINE_DEBOUNCE_MS)) ts

/-- The scan loop of `updateActiveOutlineFromCursor` (viz.js lines
808-815): linear walk keeping the last index whose line is at or before the
cursor, breaking at the first line beyond it. `i` is the index of the head
item, `best` the best index so far (`-1` initially). -/
def activeIndexAux (cursorLine : Nat) : List OutlineItem → Nat → Int → Int
  | [], _, best => best
  | it :: rest, i, best =>
    if it.line ≤ cursorLine then activeIndexAux cursorLine rest (i + 1) (Int.ofNat i)
    else best

/-- Embedding of the index computed by `updateActiveOutlineFromCursor`
(viz.js lines 805-837) for a cursor at `cursorLine`; `-1` means no active
item (for the empty outline the function returns early and no item is
active). -/
def updateActiveOutlineFromCursor (outline : List OutlineItem) (cursorLine : Nat) : Int :=
  activeIndexAux cursorLine outline 0 (-1)

end Viz

namespace Viz

/-- Document of scenario A: an opening brace line, a declaration line, a
closing brace line. -/
def demoDoc : List String := ["\x7b", "\t_class = \"Foo\"", "\x7d"]

/-- Outline of scenario C: items at lines 2, 4 and 8. -/
def demoOutline : List OutlineItem :=
  [⟨"a", "a", 2, 0⟩, ⟨"b", "b", 4, 0⟩, ⟨"c", "c", 8, 1⟩]

/-- Boolean form of the qualification test of the active-item loop: the
item's line is at or before the cursor line. -/
def qualifiesB (cursorLine : Nat) (it : OutlineItem) : Bool :=
  decide (it.line ≤ cursorLine)

/-- Items contributed by a single line of the outline scan, at line number
`i + 1`, where `lvl2` is the depth after the line's own brackets. -/
def lineItems (lvl2 : Int) (i : Nat) (line : String) : List OutlineItem :=
  match classMatch line with
  | some v => [⟨"_class = " ++ v, v, i + 1, 0⟩]
  | none =>
    match keyMatch line with
    | some k => [⟨k, k, i + 1, min lvl2 2⟩]
    | none => []

/-- Cumulative depth after the first `n` lines, starting from `lvl`. -/
def levelAfterFrom (lvl : Int) (lines : List String) (n : Nat) : Int :=
  (lines.take n).foldl scanLineLevel lvl

/-- C5: on the three-line document of scenario A the outline is exactly the
single declaration item (declaration pattern taking priority over the
generic key pattern on line 2) and the folding resolver emits exactly the
one range spanning lines 1 to 3. -/
theorem demo_declaration_outline_and_fold :
    buildOutline demoDoc = [⟨"_class = Foo", "Foo", 2, 0⟩] ∧
    provideFoldingRanges demoDoc = [⟨1, 3, FoldKind.region⟩] := by
  constructor <;> rfl

end Viz

namespace Viz

/-- Reduction of `restoreLastSchemaFromLocal` on a fully parsed record. -/
lemma restore_parsed_eq (now : Nat) (n : String) (t : Nat) (s : EditorState) :
    restoreLastSchemaFromLocal now (.parsed (some n) (some t)) s =
      if n = "" then s
      else if t = 0 then s
      else if SETTINGS_TTL_MS < now - t then s
      else { s with currentSchemaName := some n, docsTarget := some (schemaDocsUrl n) } :=
  rfl

/-- Reduction of `updateSchemaFromCursorStep` when a name resolves. -/
lemma updateSchema_resolved_eq (now : Nat) (lineText : String) (s : EditorState)
    (n : String) (hres : schemaNameFromLine lineText = some n) :
    updateSchemaFromCursorStep now lineText s =
      if s.currentSchemaName = some n then (s, ⟨0, 0⟩)
      else (⟨some n, some ⟨n, now⟩, some (schemaDocsUrl n)⟩, ⟨1, 1⟩) := by
  unfold updateSchemaFromCursorStep
  rw [hres]

/-- C6 counterexample: on the line `x = "bar" "FooVData"` the resolver
returns no name, yet the line does contain a quoted string ("FooVData")
whose content satisfies the allow-list — the code only ever tests the first
quoted string of the line against the allow-list. -/
theorem schemaName_allowlist_counterexample :
    schemaNameFromLine "x = \"bar\" \"FooVData\"" = none ∧
    "FooVData" ∈ quotedOccurrences "x = \"bar\" \"FooVData\"" ∧
    allowListed "FooVData" = true := by
  refine ⟨by decide, by decide, by decide⟩

/-- C6 amended: the resolver returns a name exactly when either the
reserved-key declaration pattern matches (its quoted value), or no
declaration matches and the first quoted string of the line satisfies the
allow-list (that string); a later allow-listed quoted string is never
consulted. -/
theorem schemaName_resolution_order (line n : String) :
    schemaNameFromLine line = some n ↔
      classMatch line = some n ∨
      (classMatch line = none ∧ firstQuoted line = some n ∧ allowListed n = true) := by
  unfold schemaNameFromLine
  cases hc : classMatch line with
  | some v => simp
  | none =>
    cases hq : firstQuoted line with
    | none => simp
    | some cand =>
      show (if allowListed cand = true then some cand else none) = some n ↔
        none = some n ∨ (none = none ∧ some cand = some n ∧ allowListed n = true)
      by_cases ha : allowListed cand = true
      · rw [if_pos ha]
        constructor
        · intro h
          rw [Option.some_inj] at h
          subst h
          exact Or.inr ⟨rfl, rfl, ha⟩
        · rintro (h | ⟨-, h, -⟩)
          · exact absurd h (by simp)
          · exact h
      · rw [if_neg ha]
        constructor
        · intro h
          exact absurd h (by simp)
        · rintro (h | ⟨-, h, ha2⟩)
          · exact absurd h (by simp)
          · rw [Option.some_inj] at h
            subst h
            exact absurd ha2 ha

/-- C10: a cursor move whose line resolves to no schema name leaves the
current name, the persisted record and the docs target untouched and
performs no storage write and no navigation request. -/
theorem updateSchema_no_resolution_frame (now : Nat) (lineText : String)
    (s : EditorState) (h : schemaNameFromLine lineText = none) :
    updateSchemaFromCursorStep now lineText s = (s, ⟨0, 0⟩) := by
  unfold updateSchemaFromCursorStep
  rw [h]

/-- C10 witness: the frame condition evaluated on a plain line. -/
theorem updateSchema_no_resolution_frame_witness :
    updateSchemaFromCursorStep 7 "plain line" ⟨some "A", none, some "u"⟩ =
      (⟨some "A", none, some "u"⟩, ⟨0, 0⟩) :=
  updateSchema_no_resolution_frame 7 "plain line" ⟨some "A", none, some "u"⟩ (by decide)

/-- C7: when the line resolves to the currently displayed name the resolver
is a no-op (no storage write, no navigation, state unchanged); when it
resolves to a different name, exactly one storage write of the record with
the current timestamp and exactly one navigation to the fixed base URL plus
the percent-encoded name fire, and the state is updated accordingly. -/
theorem updateSchema_same_name_no_op (now : Nat) (lineText : String)
    (s : EditorState) (n : String) (hres : schemaNameFromLine lineText = some n) :
    (s.currentSchemaName = some n →
      updateSchemaFromCursorStep now lineText s = (s, ⟨0, 0⟩)) ∧
    (s.currentSchemaName ≠ some n →
      updateSchemaFromCursorStep now lineText s =
        (⟨some n, some ⟨n, now⟩, some (schemaDocsUrl n)⟩, ⟨1, 1⟩)) := by
  rw [updateSchema_resolved_eq now lineText s n hres]
  constructor
  · intro h
    rw [if_pos h]
  · intro h
    rw [if_neg h]

/-- C7 witness: the no-op and the effectful branch evaluated on the line of
scenario E. -/
theorem updateSchema_same_name_no_op_witness :
    updateSchemaFromCursorStep 5 "\"CAbility_Foo_VData\""
        ⟨some "CAbility_Foo_VData", none, none⟩ =
      (⟨some "CAbility_Foo_VData", none, none⟩, ⟨0, 0⟩) ∧
    updateSchemaFromCursorStep 5 "\"CAbility_Foo_VData\"" ⟨none, none, none⟩ =
      (⟨some "CAbility_Foo_VData", some ⟨"CAbility_Foo_VData", 5⟩,
        some (schemaDocsUrl "CAbility_Foo_VData")⟩, ⟨1, 1⟩) :=
  ⟨(updateSchema_same_name_no_op 5 "\"CAbility_Foo_VData\""
      ⟨some "CAbility_Foo_VData", none, none⟩ "CAbility_Foo_VData" (by decide)).1 rfl,
   (updateSchema_same_name_no_op 5 "\"CAbility_Foo_VData\""
      ⟨none, none, none⟩ "CAbility_Foo_VData" (by decide)).2 (by simp)⟩

/-- C9: the persisted record changes the session state only when it parsed
with both fields truthy and a timestamp at most six hours old (in which
case the name is displayed and the docs panel navigated); a stale record is
ignored, and a read failure, absent key or unparseable payload leaves the
state exactly as it was. -/
theorem restore_staleness_horizon (now : Nat) (raw : StoredRaw) (s : EditorState) :
    (restoreLastSchemaFromLocal now raw s ≠ s →
      ∃ n t, raw = .parsed (some n) (some t) ∧ n ≠ "" ∧ t ≠ 0 ∧
        now - t ≤ SETTINGS_TTL_MS ∧
        restoreLastSchemaFromLocal now raw s =
          { s with currentSchemaName := some n, docsTarget := some (schemaDocsUrl n) }) ∧
    (∀ name t, raw = .parsed name (some t) → SETTINGS_TTL_MS < now - t →
      restoreLastSchemaFromLocal now raw s = s) ∧
    ((raw = .readFailure ∨ raw = .absent ∨ raw = .unparseable) →
      restoreLastSchemaFromLocal now raw s = s) := by
  refine ⟨?_, ?_, ?_⟩
  · intro hne
    match raw with
    | .readFailure => exact absurd rfl hne
    | .absent => exact absurd rfl hne
    | .unparseable => exact absurd rfl hne
    | .parsed none _ => exact absurd rfl hne
    | .parsed (some n) none => exact absurd rfl hne
    | .parsed (some n) (some t) =>
      rw [restore_parsed_eq] at hne ⊢
      refine ⟨n, t, rfl, ?_⟩
      by_cases h1 : n = ""
      · rw [if_pos h1] at hne
        exact absurd rfl hne
      · rw [if_neg h1] at hne ⊢
        by_cases h2 : t = 0
        · rw [if_pos h2] at hne
          exact absurd rfl hne
        · rw [if_neg h2] at hne ⊢
          by_cases h3 : SETTINGS_TTL_MS < now - t
          · rw [if_pos h3] at hne
            exact absurd rfl hne
          · rw [if_neg h3]
            exact ⟨h1, h2, le_of_not_lt h3, rfl⟩
  · intro name t hraw hstale
    subst hraw
    match name with
    | none => rfl
    | some n =>
      rw [restore_parsed_eq]
      by_cases h1 : n = ""
      · rw [if_pos h1]
      · rw [if_neg h1]
        by_cases h2 : t = 0
        · rw [if_pos h2]
        · rw [if_neg h2, if_pos hstale]
  · rintro (h | h | h) <;> subst h <;> rfl

/-- C9 witness: a record one millisecond past the six hour horizon is
ignored, and a read failure leaves the state untouched. -/
theorem restore_staleness_horizon_witness :
    restoreLastSchemaFromLocal (SETTINGS_TTL_MS + 2) (.parsed (some "A") (some 1))
        ⟨none, none, none⟩ = ⟨none, none, none⟩ ∧
    restoreLastSchemaFromLocal 0 .readFailure ⟨none, none, none⟩ = ⟨none, none, none⟩ :=
  ⟨(restore_staleness_horizon (SETTINGS_TTL_MS + 2) (.parsed (some "A") (some 1))
      ⟨none, none, none⟩).2.1 (some "A") 1 rfl (by omega),
   (restore_staleness_horizon 0 .readFailure ⟨none, none, none⟩).2.2 (Or.inl rfl)⟩

/-- A burst of edits each within the debounce window keeps superseding the
pending timer: only the final timer survives, firing 300 ms after the last
edit. -/
lemma debounceRun_close_gaps (ts : List Nat) :
    ∀ t : Nat, (t :: ts).Chain' (fun a b => a < b ∧ b < a + OUTLINE_DEBOUNCE_MS) →
      debounceRun (some (t + OUTLINE_DEBOUNCE_MS)) ts =
        [(t :: ts).getLast (by simp) + OUTLINE_DEBOUNCE_MS] := by
  induction ts with
  | nil =>
    intro t _
    rfl
  | cons u us ih =>
    intro t h
    rw [List.chain'_cons] at h
    have hfire : ¬ t + OUTLINE_DEBOUNCE_MS < u := by omega
    show (if t + OUTLINE_DEBOUNCE_MS < u then [t + OUTLINE_DEBOUNCE_MS] else []) ++
        debounceRun (some (u + OUTLINE_DEBOUNCE_MS)) us = _
    rw [if_neg hfire, List.nil_append, ih u h.2]
    congr 1

/-- Edits spaced wider than the debounce window each let their own timer
fire: one rebuild 300 ms after every edit. -/
lemma debounceRun_far_gaps (ts : List Nat) :
    ∀ t : Nat, (t :: ts).Chain' (fun a b => a + OUTLINE_DEBOUNCE_MS < b) →
      debounceRun (some (t + OUTLINE_DEBOUNCE_MS)) ts =
        (t :: ts).map (· + OUTLINE_DEBOUNCE_MS) := by
  induction ts with
  | nil =>
    intro t _
    rfl
  | cons u us ih =>
    intro t h
    rw [List.chain'_cons] at h
    show (if t + OUTLINE_DEBOUNCE_MS < u then [t + OUTLINE_DEBOUNCE_MS] else []) ++
        debounceRun (some (u + OUTLINE_DEBOUNCE_MS)) us = _
    rw [if_pos h.1, ih u h.2]
    rfl

/-- C8: starting with no pending timer, a nonempty stream of edits whose
consecutive gaps are all under 300 ms produces exactly one rebuild, fired
300 ms after the last edit; a stream whose consecutive gaps all exceed
300 ms produces one rebuild per edit, each fired 300 ms after its edit. -/
theorem debounce_coalesces (edits : List Nat) :
    (edits.Chain' (fun a b => a < b ∧ b < a + OUTLINE_DEBOUNCE_MS) →
      debounceRun none edits = (edits.getLast?.map (· + OUTLINE_DEBOUNCE_MS)).toList) ∧
    (edits.Chain' (fun a b => a + OUTLINE_DEBOUNCE_MS < b) →
      debounceRun none edits = edits.map (· + OUTLINE_DEBOUNCE_MS)) := by
  constructor
  · intro h
    match edits with
    | [] => rfl
    | t :: ts =>
      show [] ++ debounceRun (some (t + OUTLINE_DEBOUNCE_MS)) ts = _
      rw [List.nil_append, debounceRun_close_gaps ts t h]
      rw [List.getLast?_eq_getLast _ (by simp)]
      rfl
  · intro h
    match edits with
    | [] => rfl
    | t :: ts =>
      show [] ++ debounceRun (some (t + OUTLINE_DEBOUNCE_MS)) ts = _
      rw [List.nil_append, debounceRun_far_gaps ts t h]

/-- C8 witness: three edits 100 ms apart coalesce into one rebuild at
500 ms; three edits 400 ms apart produce three rebuilds. -/
theorem debounce_coalesces_witness :
    debounceRun none [0, 100, 200] = [500] ∧
    debounceRun none [0, 400, 800] = [300, 700, 1100] :=
  ⟨((debounce_coalesces [0, 100, 200]).1
      (by norm_num [List.chain'_cons, OUTLINE_DEBOUNCE_MS])).trans (by decide),
   ((debounce_coalesces [0, 400, 800]).2
      (by norm_num [List.chain'_cons, OUTLINE_DEBOUNCE_MS])).trans (by decide)⟩

/-- The break-at-first-failure loop computes its answer from the qualifying
prefix: it returns `best` when no leading item qualifies, else the index of
the last item of that prefix. -/
lemma activeIndexAux_eq_takeWhile (c : Nat) (l : List OutlineItem) :
    ∀ (i : Nat) (best : Int),
      activeIndexAux c l i best =
        if (l.takeWhile (qualifiesB c)).length = 0 then best
        else Int.ofNat (i + (l.takeWhile (qualifiesB c)).length - 1) := by
  induction l with
  | nil =>
    intro i best
    simp [activeIndexAux]
  | cons x xs ih =>
    intro i best
    by_cases hx : x.line ≤ c
    · have hq : qualifiesB c x = true := decide_eq_true hx
      have h1 : activeIndexAux c (x :: xs) i best =
          activeIndexAux c xs (i + 1) (Int.ofNat i) := by
        simp [activeIndexAux, hx]
      have h2 : (x :: xs).takeWhile (qualifiesB c) =
          x :: xs.takeWhile (qualifiesB c) := by
        simp [List.takeWhile_cons, hq]
      rw [h1, ih, h2]
      by_cases hk : (xs.takeWhile (qualifiesB c)).length = 0
      · rw [if_pos hk,
          if_neg (by simp : ¬ (x :: xs.takeWhile (qualifiesB c)).length = 0)]
        congr 1
        simp only [List.length_cons]
        omega
      · rw [if_neg hk,
          if_neg (by simp : ¬ (x :: xs.takeWhile (qualifiesB c)).length = 0)]
        congr 1
        simp only [List.length_cons]
        omega
    · have hq : qualifiesB c x = false := decide_eq_false hx
      have h1 : activeIndexAux c (x :: xs) i best = best := by
        simp [activeIndexAux, hx]
      have h2 : (x :: xs).takeWhile (qualifiesB c) = [] := by
        simp [List.takeWhile_cons, hq]
      rw [h1, h2]
      simp

/-- The qualifying prefix is no longer than the list. -/
lemma takeWhile_len_le {α : Type} (p : α → Bool) :
    ∀ l : List α, (l.takeWhile p).length ≤ l.length := by
  intro l
  induction l with
  | nil => simp
  | cons x xs ih =>
    by_cases hx : p x = true
    · rw [List.takeWhile_cons, if_pos hx]
      simp only [List.length_cons]
      omega
    · rw [List.takeWhile_cons, if_neg hx]
      simp only [List.length_nil, List.length_cons]
      omega

/-- Every position inside the qualifying prefix satisfies the predicate. -/
lemma takeWhile_get_true {α : Type} (p : α → Bool) :
    ∀ (l : List α) (j : Nat) (hj : j < l.length),
      j < (l.takeWhile p).length → p (l.get ⟨j, hj⟩) = true := by
  intro l
  induction l with
  | nil => simp
  | cons x xs ih =>
    intro j hj hjk
    by_cases hx : p x = true
    · rw [List.takeWhile_cons, if_pos hx] at hjk
      match j with
      | 0 => exact hx
      | j + 1 =>
        simp only [List.length_cons] at hjk
        exact ih j (by simpa using hj) (by omega)
    · rw [List.takeWhile_cons, if_neg hx] at hjk
      simp at hjk

/-- The position just past the qualifying prefix, when it exists, fails the
predicate. -/
lemma takeWhile_boundary_false {α : Type} (p : α → Bool) :
    ∀ (l : List α) (j : Nat) (hj : j < l.length),
      j = (l.takeWhile p).length → p (l.get ⟨j, hj⟩) = false := by
  intro l
  induction l with
  | nil => simp
  | cons x xs ih =>
    intro j hj hje
    by_cases hx : p x = true
    · rw [List.takeWhile_cons, if_pos hx] at hje
      match j with
      | 0 => simp at hje
      | j + 1 =>
        simp only [List.length_cons] at hje
        exact ih j (by simpa using hj) (by omega)
    · rw [List.takeWhile_cons, if_neg hx] at hje
      match j with
      | 0 => simpa using hx
      | j + 1 => simp at hje

/-- Strictly ascending outline lines are pairwise comparable by index. -/
lemma outline_pairwise_lt (outline : List OutlineItem)
    (hsorted : outline.Chain' (fun a b => a.line < b.line)) :
    ∀ (i j : Nat) (hi : i < outline.length) (hj : j < outline.length),
      i < j → (outline.get ⟨i, hi⟩).line < (outline.get ⟨j, hj⟩).line := by
  haveI : IsTrans OutlineItem (fun a b => a.line < b.line) :=
    ⟨fun _ _ _ hab hbc => lt_trans hab hbc⟩
  have hpair : outline.Pairwise (fun a b => a.line < b.line) :=
    List.chain'_iff_pairwise.mp hsorted
  rw [List.pairwise_iff_getElem] at hpair
  intro i j hi hj hij
  simpa using hpair i j hi hj hij

/-- C1: on a strictly ascending outline the tracker returns -1 exactly when
the cursor lies above every item, and otherwise the greatest index whose
item line is at or before the cursor line. -/
theorem activeIndex_greatest_le (outline : List OutlineItem) (cursorLine : Nat)
    (hsorted : outline.Chain' (fun a b => a.line < b.line)) :
    (updateActiveOutlineFromCursor outline cursorLine = -1 →
      ∀ it ∈ outline, cursorLine < it.line) ∧
    (updateActiveOutlineFromCursor outline cursorLine ≠ -1 →
      ∃ (i : Nat) (hi : i < outline.length),
        updateActiveOutlineFromCursor outline cursorLine = Int.ofNat i ∧
        (outline.get ⟨i, hi⟩).line ≤ cursorLine ∧
        ∀ (j : Nat) (hj : j < outline.length),
          (outline.get ⟨j, hj⟩).line ≤ cursorLine → j ≤ i) := by
  have hrun : updateActiveOutlineFromCursor outline cursorLine =
      if (outline.takeWhile (qualifiesB cursorLine)).length = 0 then (-1 : Int)
      else Int.ofNat (0 + (outline.takeWhile (qualifiesB cursorLine)).length - 1) :=
    activeIndexAux_eq_takeWhile cursorLine outline 0 (-1)
  constructor
  · intro hneg it hit
    by_cases hk0 : (outline.takeWhile (qualifiesB cursorLine)).length = 0
    · obtain ⟨j, hj, rfl⟩ : ∃ (j : Nat) (hj : j < outline.length),
          outline.get ⟨j, hj⟩ = it := by
        rw [List.mem_iff_getElem] at hit
        obtain ⟨j, hj, he⟩ := hit
        exact ⟨j, hj, by simpa using he⟩
      have hlen : 0 < outline.length := by omega
      have hb0 : qualifiesB cursorLine (outline.get ⟨0, hlen⟩) = false :=
        takeWhile_boundary_false (qualifiesB cursorLine) outline 0 hlen (by omega)
      have h0 : cursorLine < (outline.get ⟨0, hlen⟩).line := by
        have := of_decide_eq_false hb0
        omega
      match j with
      | 0 => exact h0
      | j + 1 =>
        have := outline_pairwise_lt outline hsorted 0 (j + 1) hlen hj (by omega)
        omega
    · exfalso
      rw [hrun, if_neg hk0] at hneg
      simp only [Int.ofNat_eq_natCast] at hneg
      omega
  · intro hne
    by_cases hk0 : (outline.takeWhile (qualifiesB cursorLine)).length = 0
    · exfalso
      rw [hrun, if_pos hk0] at hne
      exact hne rfl
    · have hkle : (outline.takeWhile (qualifiesB cursorLine)).length ≤ outline.length :=
        takeWhile_len_le _ outline
      have hi : (outline.takeWhile (qualifiesB cursorLine)).length - 1 < outline.length := by
        omega
      refine ⟨(outline.takeWhile (qualifiesB cursorLine)).length - 1, hi, ?_, ?_, ?_⟩
      · rw [hrun, if_neg hk0]
        congr 1
        omega
      · exact of_decide_eq_true
          (takeWhile_get_true (qualifiesB cursorLine) outline _ hi (by omega))
      · intro j hj hjq
        by_contra hgt
        push_neg at hgt
        have hkb : (outline.takeWhile (qualifiesB cursorLine)).length < outline.length := by
          omega
        have hfalse := takeWhile_boundary_false (qualifiesB cursorLine) outline
          (outline.takeWhile (qualifiesB cursorLine)).length hkb rfl
        have hklt : cursorLine <
            (outline.get ⟨(outline.takeWhile (qualifiesB cursorLine)).length, hkb⟩).line := by
          have := of_decide_eq_false hfalse
          omega
        rcases Nat.lt_or_ge (outline.takeWhile (qualifiesB cursorLine)).length j with hlt | hge
        · have := outline_pairwise_lt outline hsorted
            (outline.takeWhile (qualifiesB cursorLine)).length j hkb hj hlt
          omega
        · have hje : (outline.takeWhile (qualifiesB cursorLine)).length = j := by omega
          subst hje
          have hjq2 : (outline.get
              ⟨(outline.takeWhile (qualifiesB cursorLine)).length, hkb⟩).line ≤ cursorLine := hjq
          omega

/-- C1 witness: scenario C — outline items at lines 2, 4 and 8 with the
cursor at line 5 resolve to index 1. -/
theorem activeIndex_greatest_le_witness :
    demoOutline.Chain' (fun a b => a.line < b.line) ∧
    (updateActiveOutlineFromCursor demoOutline 5 = -1 →
      ∀ it ∈ demoOutline, 5 < it.line) ∧
    (updateActiveOutlineFromCursor demoOutline 5 ≠ -1 →
      ∃ (i : Nat) (hi : i < demoOutline.length),
        updateActiveOutlineFromCursor demoOutline 5 = Int.ofNat i ∧
        (demoOutline.get ⟨i, hi⟩).line ≤ 5 ∧
        ∀ (j : Nat) (hj : j < demoOutline.length),
          (demoOutline.get ⟨j, hj⟩).line ≤ 5 → j ≤ i) :=
  have hs : demoOutline.Chain' (fun a b => a.line < b.line) := by
    simp [demoOutline, List.chain'_cons]
  ⟨hs, activeIndex_greatest_le demoOutline 5 hs⟩

/-- A close bracket is never an open bracket. -/
lemma close_not_open (c : Char) (hc : isCloseBracket c = true) :
    isOpenBracket c = false := by
  unfold isCloseBracket at hc
  simp only [Bool.or_eq_true, decide_eq_true_eq] at hc
  rcases hc with ((h | h) | h) | h <;> subst h <;> decide

/-- One scanner step never drives the depth negative. -/
lemma scanStep_nonneg (lvl : Int) (c : Char) (h : 0 ≤ lvl) : 0 ≤ scanStep lvl c := by
  unfold scanStep
  split_ifs
  · omega
  · exact le_max_left 0 _
  · exact h

/-- A whole line of scanning never drives the depth negative. -/
lemma scanLineLevel_nonneg (line : String) (lvl : Int) (h : 0 ≤ lvl) :
    0 ≤ scanLineLevel lvl line := by
  unfold scanLineLevel
  have hgen : ∀ (cs : List Char) (l : Int), 0 ≤ l → 0 ≤ cs.foldl scanStep l := by
    intro cs
    induction cs with
    | nil => intro l hl; exact hl
    | cons c cs ih => intro l hl; exact ih (scanStep l c) (scanStep_nonneg l c hl)
  exact hgen line.data lvl h

/-- Characters that are neither open nor close brackets leave the depth
unchanged. -/
lemma foldl_scanStep_id : ∀ (cs : List Char),
    (∀ ch ∈ cs, isOpenBracket ch = false ∧ isCloseBracket ch = false) →
    ∀ lvl : Int, cs.foldl scanStep lvl = lvl := by
  intro cs
  induction cs with
  | nil => intro _ lvl; rfl
  | cons c cs ih =>
    intro h lvl
    show cs.foldl scanStep (scanStep lvl c) = lvl
    have hc := h c (by simp)
    have hstep : scanStep lvl c = lvl := by
      unfold scanStep
      rw [if_neg (by simp [hc.1]), if_neg (by simp [hc.2])]
    rw [hstep]
    exact ih (fun ch hch => h ch (by simp [hch])) lvl

/-- Bracket-free lines leave the cumulative depth unchanged. -/
lemma foldl_scanLineLevel_id : ∀ (ms : List String),
    (∀ l ∈ ms, ∀ ch ∈ l.data, isOpenBracket ch = false ∧ isCloseBracket ch = false) →
    ∀ lvl : Int, ms.foldl scanLineLevel lvl = lvl := by
  intro ms
  induction ms with
  | nil => intro _ lvl; rfl
  | cons m ms ih =>
    intro h lvl
    show ms.foldl scanLineLevel (scanLineLevel lvl m) = lvl
    have hm : scanLineLevel lvl m = lvl := foldl_scanStep_id m.data (h m (by simp)) lvl
    rw [hm]
    exact ih (fun l hl => h l (by simp [hl])) lvl

/-- Scenario D depths: a document opening with a lone unmatched closing
brace followed by bracket-free lines keeps the cumulative depth at the
floor zero after every line. -/
lemma levelAfter_closing_doc (ls : List String)
    (hls : ∀ l ∈ ls, ∀ ch ∈ l.data, isOpenBracket ch = false ∧ isCloseBracket ch = false) :
    ∀ n, levelAfter ("\x7d" :: ls) n = 0 := by
  intro n
  match n with
  | 0 => rfl
  | n + 1 =>
    show (("\x7d" :: ls).take (n + 1)).foldl scanLineLevel 0 = 0
    rw [List.take_succ_cons]
    show (ls.take n).foldl scanLineLevel (scanLineLevel 0 "\x7d") = 0
    have h1 : scanLineLevel 0 "\x7d" = 0 := rfl
    rw [h1]
    refine foldl_scanLineLevel_id (ls.take n) ?_ 0
    intro l hl
    exact hls l (( List.take_prefix n ls).subset hl)

/-- Branch equation of the folding step on an open bracket. -/
lemma foldStep_open (line : Nat) (stack : List (Char × Nat)) (rs : List FoldRange)
    (ch : Char) (h : isOpenBracket ch = true) :
    foldStep line (stack, rs) ch = ((ch, line) :: stack, rs) := by
  unfold foldStep
  rw [if_pos h]

/-- Branch equation of the folding step on a non-bracket character. -/
lemma foldStep_other (line : Nat) (stack : List (Char × Nat)) (rs : List FoldRange)
    (ch : Char) (h1 : isOpenBracket ch = false) (h2 : isCloseBracket ch = false) :
    foldStep line (stack, rs) ch = (stack, rs) := by
  unfold foldStep
  rw [if_neg (by simp [h1]), if_neg (by simp [h2])]

/-- Branch equation of the folding step on a close bracket with an empty
stack: silently ignored. -/
lemma foldStep_close_nil (line : Nat) (rs : List FoldRange) (ch : Char)
    (h1 : isOpenBracket ch = false) (h2 : isCloseBracket ch = true) :
    foldStep line ([], rs) ch = ([], rs) := by
  unfold foldStep
  rw [if_neg (by simp [h1]), if_pos h2]

/-- Branch equation of the folding step on a close bracket with a nonempty
stack: pop, and emit only when the open line precedes the close line. -/
lemma foldStep_close_cons (line : Nat) (top : Char × Nat) (rest : List (Char × Nat))
    (rs : List FoldRange) (ch : Char)
    (h1 : isOpenBracket ch = false) (h2 : isCloseBracket ch = true) :
    foldStep line (top :: rest, rs) ch =
      if top.2 < line then (rest, rs ++ [⟨top.2, line, FoldKind.region⟩])
      else (rest, rs) := by
  unfold foldStep
  rw [if_neg (by simp [h1]), if_pos h2]

/-- The folding step preserves the start-before-end invariant of the
accumulated ranges. -/
lemma foldStep_ranges_ok (line : Nat) (stack : List (Char × Nat)) (rs : List FoldRange)
    (ch : Char) (h : ∀ r ∈ rs, r.start < r.endLine) :
    ∀ r ∈ (foldStep line (stack, rs) ch).2, r.start < r.endLine := by
  by_cases h1 : isOpenBracket ch = true
  · rw [foldStep_open line stack rs ch h1]
    exact h
  · have h1f : isOpenBracket ch = false := by simpa using h1
    by_cases h2 : isCloseBracket ch = true
    · match stack with
      | [] =>
        rw [foldStep_close_nil line rs ch h1f h2]
        exact h
      | top :: rest =>
        rw [foldStep_close_cons line top rest rs ch h1f h2]
        by_cases hlt : top.2 < line
        · rw [if_pos hlt]
          intro r hr
          rcases List.mem_append.mp hr with hr | hr
          · exact h r hr
          · simp only [List.mem_singleton] at hr
            subst hr
            exact hlt
        · rw [if_neg hlt]
          exact h
    · have h2f : isCloseBracket ch = false := by simpa using h2
      rw [foldStep_other line stack rs ch h1f h2f]
      exact h

/-- The invariant is preserved across a whole line of characters. -/
lemma foldl_ranges_ok (line : Nat) :
    ∀ (cs : List Char) (st : List (Char × Nat) × List FoldRange),
      (∀ r ∈ st.2, r.start < r.endLine) →
      ∀ r ∈ (cs.foldl (foldStep line) st).2, r.start < r.endLine := by
  intro cs
  induction cs with
  | nil => intro st h; exact h
  | cons c cs ih =>
    intro st h
    refine ih (foldStep line st c) ?_
    obtain ⟨stack, rs⟩ := st
    exact foldStep_ranges_ok line stack rs c h

/-- The invariant is preserved across the whole document. -/
lemma foldDoc_ranges_ok :
    ∀ (ls : List String) (n : Nat) (st : List (Char × Nat) × List FoldRange),
      (∀ r ∈ st.2, r.start < r.endLine) →
      ∀ r ∈ (foldDoc n st ls).2, r.start < r.endLine := by
  intro ls
  induction ls with
  | nil => intro n st h; exact h
  | cons l ls ih =>
    intro n st h
    exact ih (n + 1) (foldLine n st l) (foldl_ranges_ok n l.data st h)

/-- With an empty stack, any character that is not an open bracket leaves
the folding state untouched. -/
lemma foldStep_no_open (line : Nat) (rs : List FoldRange) (ch : Char)
    (h1 : isOpenBracket ch = false) :
    foldStep line ([], rs) ch = ([], rs) := by
  by_cases h2 : isCloseBracket ch = true
  · exact foldStep_close_nil line rs ch h1 h2
  · exact foldStep_other line [] rs ch h1 (by simpa using h2)

/-- A line with no open bracket scanned from an empty stack stays at the
empty stack and emits nothing. -/
lemma foldl_no_open (line : Nat) :
    ∀ (cs : List Char) (rs : List FoldRange),
      (∀ ch ∈ cs, isOpenBracket ch = false) →
      cs.foldl (foldStep line) ([], rs) = ([], rs) := by
  intro cs
  induction cs with
  | nil => intro rs _; rfl
  | cons c cs ih =>
    intro rs h
    show cs.foldl (foldStep line) (foldStep line ([], rs) c) = ([], rs)
    rw [foldStep_no_open line rs c (h c (by simp))]
    exact ih rs (fun ch hch => h ch (by simp [hch]))

/-- A document with no open bracket never grows the stack and never emits a
range: every unmatched close is silently dropped. -/
lemma foldDoc_no_open :
    ∀ (ls : List String) (n : Nat) (rs : List FoldRange),
      (∀ l ∈ ls, ∀ ch ∈ l.data, isOpenBracket ch = false) →
      foldDoc n ([], rs) ls = ([], rs) := by
  intro ls
  induction ls with
  | nil => intro n rs _; rfl
  | cons l ls ih =>
    intro n rs h
    show foldDoc (n + 1) (foldLine n ([], rs) l) ls = ([], rs)
    have hline : foldLine n ([], rs) l = ([], rs) :=
      foldl_no_open n l.data rs (h l (by simp))
    rw [hline]
    exact ih (n + 1) rs (fun l2 hl2 => h l2 (by simp [hl2]))

/-- A character that is not a close bracket never emits a range. -/
lemma foldStep_no_close_ranges (line : Nat) (stack : List (Char × Nat))
    (rs : List FoldRange) (ch : Char) (h2 : isCloseBracket ch = false) :
    (foldStep line (stack, rs) ch).2 = rs := by
  by_cases h1 : isOpenBracket ch = true
  · rw [foldStep_open line stack rs ch h1]
  · rw [foldStep_other line stack rs ch (by simpa using h1) h2]

/-- A line with no close bracket emits no range. -/
lemma foldl_no_close_ranges (line : Nat) :
    ∀ (cs : List Char) (st : List (Char × Nat) × List FoldRange),
      (∀ ch ∈ cs, isCloseBracket ch = false) →
      (cs.foldl (foldStep line) st).2 = st.2 := by
  intro cs
  induction cs with
  | nil => intro st _; rfl
  | cons c cs ih =>
    intro st h
    show (cs.foldl (foldStep line) (foldStep line st c)).2 = st.2
    rw [ih (foldStep line st c) (fun ch hch => h ch (by simp [hch]))]
    obtain ⟨stack, rs⟩ := st
    exact foldStep_no_close_ranges line stack rs c (h c (by simp))

/-- A document with no close bracket emits no range: unmatched opens left
on the stack at end of document are discarded. -/
lemma foldDoc_no_close_ranges :
    ∀ (ls : List String) (n : Nat) (st : List (Char × Nat) × List FoldRange),
      (∀ l ∈ ls, ∀ ch ∈ l.data, isCloseBracket ch = false) →
      (foldDoc n st ls).2 = st.2 := by
  intro ls
  induction ls with
  | nil => intro n st _; rfl
  | cons l ls ih =>
    intro n st h
    show (foldDoc (n + 1) (foldLine n st l) ls).2 = st.2
    rw [ih (n + 1) (foldLine n st l) (fun l2 hl2 => h l2 (by simp [hl2]))]
    exact foldl_no_close_ranges n l.data st (h l (by simp))

/-- C4: every emitted folding range satisfies start < end (a same-line
bracket pair never folds); a document with only closing brackets emits no
range (unmatched closes are silently ignored), and a document with only
opening brackets emits no range (unmatched opens never close). -/
theorem foldingRanges_invariants (lines : List String) :
    (∀ r ∈ provideFoldingRanges lines, r.start < r.endLine) ∧
    ((∀ l ∈ lines, ∀ ch ∈ l.data, isOpenBracket ch = false) →
      provideFoldingRanges lines = []) ∧
    ((∀ l ∈ lines, ∀ ch ∈ l.data, isCloseBracket ch = false) →
      provideFoldingRanges lines = []) := by
  refine ⟨?_, ?_, ?_⟩
  · exact foldDoc_ranges_ok lines 1 ([], []) (by simp)
  · intro h
    unfold provideFoldingRanges
    rw [foldDoc_no_open lines 1 [] h]
  · intro h
    unfold provideFoldingRanges
    exact foldDoc_no_close_ranges lines 1 ([], []) h

/-- C4 witness: the invariant on the scenario A document, a close-only
document, and an open-only document. -/
theorem foldingRanges_invariants_witness :
    (∀ r ∈ provideFoldingRanges demoDoc, r.start < r.endLine) ∧
    provideFoldingRanges [")]"] = [] ∧
    provideFoldingRanges ["(["] = [] :=
  ⟨(foldingRanges_invariants demoDoc).1,
   (foldingRanges_invariants [")]"]).2.1 (by decide),
   (foldingRanges_invariants ["(["]).2.2 (by decide)⟩

/-- C3: the scanner increments on any open bracket and decrements with a
floor at zero on any close bracket regardless of bracket kind (an open
bracket cancelled by a close of a different kind restores the depth); from
a nonnegative depth the scan never goes negative; and the scenario D
document — a lone unmatched closing brace on line 1 followed by
bracket-free lines — keeps depth zero after every line and yields no fold
range for that brace. -/
theorem scanner_lenient_floor (d : Int) (hd : 0 ≤ d) (o c : Char)
    (ho : isOpenBracket o = true) (hc : isCloseBracket c = true)
    (ls : List String)
    (hls : ∀ l ∈ ls, ∀ ch ∈ l.data, isOpenBracket ch = false ∧ isCloseBracket ch = false) :
    scanStep d o = d + 1 ∧
    scanStep d c = max 0 (d - 1) ∧
    (∀ line : String, 0 ≤ scanLineLevel d line) ∧
    scanLineLevel d (String.mk [o, c]) = d ∧
    (∀ n, levelAfter ("\x7d" :: ls) n = 0) ∧
    provideFoldingRanges ("\x7d" :: ls) = [] := by
  have hco : isOpenBracket c = false := close_not_open c hc
  have hstep_o : scanStep d o = d + 1 := by
    unfold scanStep
    rw [if_pos ho]
  have hstep_c : ∀ e : Int, scanStep e c = max 0 (e - 1) := by
    intro e
    unfold scanStep
    rw [if_neg (by simp [hco]), if_pos hc]
  refine ⟨hstep_o, hstep_c d, ?_, ?_, levelAfter_closing_doc ls hls, ?_⟩
  · intro line
    exact scanLineLevel_nonneg line d hd
  · show scanStep (scanStep d o) c = d
    rw [hstep_o, hstep_c (d + 1)]
    have h2 : d + 1 - 1 = d := by ring
    rw [h2, max_eq_right hd]
  · unfold provideFoldingRanges
    rw [foldDoc_no_open ("\x7d" :: ls) 1 [] ?_]
    intro l hl ch hch
    rcases List.mem_cons.mp hl with rfl | hl
    · exact (by decide : ∀ ch2 ∈ ("\x7d" : String).data, isOpenBracket ch2 = false) ch hch
    · exact (hls l hl ch hch).1

/-- C3 witness: depth 0, a square open bracket closed by an angle close
bracket, and the scenario D document with one bracket-free trailing line. -/
theorem scanner_lenient_floor_witness :
    (0 : Int) ≤ 0 ∧ isOpenBracket '[' = true ∧ isCloseBracket '>' = true ∧
    (scanStep 0 '[' = 0 + 1 ∧
      scanStep 0 '>' = max 0 (0 - 1) ∧
      (∀ line : String, 0 ≤ scanLineLevel 0 line) ∧
      scanLineLevel 0 (String.mk ['[', '>']) = 0 ∧
      (∀ n, levelAfter ("\x7d" :: ["abc"]) n = 0) ∧
      provideFoldingRanges ("\x7d" :: ["abc"]) = []) :=
  ⟨le_refl 0, rfl, rfl,
   scanner_lenient_floor 0 (le_refl 0) '[' '>' rfl rfl ["abc"] (by decide)⟩

/-- Unfolding of the outline scan on the empty document. -/
lemma buildOutlineGo_nil (lvl : Int) (i : Nat) : buildOutlineGo lvl i [] = [] := rfl

/-- Unfolding of the outline scan on a cons: the line's own items followed
by the scan of the rest at the updated depth. -/
lemma buildOutlineGo_cons (lvl : Int) (i : Nat) (line : String) (rest : List String) :
    buildOutlineGo lvl i (line :: rest) =
      lineItems (scanLineLevel lvl line) i line ++
        buildOutlineGo (scanLineLevel lvl line) (i + 1) rest := rfl

/-- Branch equation: a declaration line contributes its declaration item. -/
lemma lineItems_class (lvl2 : Int) (i : Nat) (line : String) (v : String)
    (hc : classMatch line = some v) :
    lineItems lvl2 i line = [⟨"_class = " ++ v, v, i + 1, 0⟩] := by
  unfold lineItems
  rw [hc]

/-- Branch equation: a key line contributes its key item at capped depth. -/
lemma lineItems_key (lvl2 : Int) (i : Nat) (line : String) (k : String)
    (hc : classMatch line = none) (hk : keyMatch line = some k) :
    lineItems lvl2 i line = [⟨k, k, i + 1, min lvl2 2⟩] := by
  unfold lineItems
  rw [hc, hk]

/-- Branch equation: a plain line contributes nothing. -/
lemma lineItems_plain (lvl2 : Int) (i : Nat) (line : String)
    (hc : classMatch line = none) (hk : keyMatch line = none) :
    lineItems lvl2 i line = [] := by
  unfold lineItems
  rw [hc, hk]

/-- Every item a line contributes carries that line's 1-based number. -/
lemma lineItems_line (lvl2 : Int) (i : Nat) (line : String) :
    ∀ it ∈ lineItems lvl2 i line, it.line = i + 1 := by
  intro it hit
  cases hc : classMatch line with
  | some v =>
    rw [lineItems_class lvl2 i line v hc] at hit
    rw [List.mem_singleton] at hit
    rw [hit]
  | none =>
    cases hk : keyMatch line with
    | some k =>
      rw [lineItems_key lvl2 i line k hc hk] at hit
      rw [List.mem_singleton] at hit
      rw [hit]
    | none =>
      rw [lineItems_plain lvl2 i line hc hk] at hit
      exact absurd hit (List.not_mem_nil it)

/-- Every item of the scan of the remaining lines lies strictly below the
current line counter. -/
lemma buildOutlineGo_line_gt : ∀ (rest : List String) (lvl : Int) (i : Nat),
    ∀ it ∈ buildOutlineGo lvl i rest, i < it.line := by
  intro rest
  induction rest with
  | nil =>
    intro lvl i it hit
    rw [buildOutlineGo_nil] at hit
    exact absurd hit (List.not_mem_nil it)
  | cons line ls ih =>
    intro lvl i it hit
    rw [buildOutlineGo_cons] at hit
    rcases List.mem_append.mp hit with hit | hit
    · have := lineItems_line (scanLineLevel lvl line) i line it hit
      omega
    · have := ih (scanLineLevel lvl line) (i + 1) it hit
      omega

/-- A single line contributes at most one item, so its item list is a
chain. -/
lemma lineItems_chain (lvl2 : Int) (i : Nat) (line : String) :
    (lineItems lvl2 i line).Chain' (fun a b => a.line < b.line) := by
  cases hc : classMatch line with
  | some v =>
    rw [lineItems_class lvl2 i line v hc]
    simp
  | none =>
    cases hk : keyMatch line with
    | some k =>
      rw [lineItems_key lvl2 i line k hc hk]
      simp
    | none =>
      rw [lineItems_plain lvl2 i line hc hk]
      simp

/-- The outline scan produces items in strictly increasing line order. -/
lemma buildOutlineGo_chain : ∀ (rest : List String) (lvl : Int) (i : Nat),
    (buildOutlineGo lvl i rest).Chain' (fun a b => a.line < b.line) := by
  intro rest
  induction rest with
  | nil =>
    intro lvl i
    rw [buildOutlineGo_nil]
    simp
  | cons line ls ih =>
    intro lvl i
    rw [buildOutlineGo_cons, List.chain'_append]
    refine ⟨lineItems_chain _ i line, ih _ (i + 1), ?_⟩
    intro x hx y hy
    have hxmem : x ∈ lineItems (scanLineLevel lvl line) i line := by
      cases hli : lineItems (scanLineLevel lvl line) i line with
      | nil =>
        rw [hli] at hx
        simp at hx
      | cons a as =>
        exact hli ▸ List.mem_of_mem_getLast? hx
    have hx1 : x.line = i + 1 := lineItems_line _ i line x hxmem
    have hy1 : i + 1 < y.line :=
      buildOutlineGo_line_gt ls (scanLineLevel lvl line) (i + 1) y
        (List.mem_of_mem_head? hy)
    omega

/-- Depth after a bracket-counting fold over lines stays nonnegative. -/
lemma foldl_scanLineLevel_nonneg : ∀ (ms : List String) (lvl : Int),
    0 ≤ lvl → 0 ≤ ms.foldl scanLineLevel lvl := by
  intro ms
  induction ms with
  | nil => intro lvl h; exact h
  | cons m ms ih =>
    intro lvl h
    exact ih (scanLineLevel lvl m) (scanLineLevel_nonneg m lvl h)

/-- The cumulative depth after any prefix of the document is nonnegative. -/
lemma levelAfterFrom_nonneg (lines : List String) (n : Nat) (lvl : Int) (h : 0 ≤ lvl) :
    0 ≤ levelAfterFrom lvl lines n :=
  foldl_scanLineLevel_nonneg (lines.take n) lvl h

/-- Provenance of every outline item: it stems from a specific line, a
declaration item verbatim at depth 0, or a key item at the capped
cumulative depth after that line. -/
lemma buildOutlineGo_provenance : ∀ (rest : List String) (lvl : Int) (i : Nat),
    ∀ it ∈ buildOutlineGo lvl i rest,
      ∃ n, n < rest.length ∧ it.line = i + 1 + n ∧
        ((∃ v, classMatch (rest.getD n "") = some v ∧
            it = ⟨"_class = " ++ v, v, i + 1 + n, 0⟩) ∨
         (classMatch (rest.getD n "") = none ∧
          ∃ k, keyMatch (rest.getD n "") = some k ∧
            it = ⟨k, k, i + 1 + n, min (levelAfterFrom lvl rest (n + 1)) 2⟩)) := by
  intro rest
  induction rest with
  | nil =>
    intro lvl i it hit
    rw [buildOutlineGo_nil] at hit
    exact absurd hit (List.not_mem_nil it)
  | cons line ls ih =>
    intro lvl i it hit
    rw [buildOutlineGo_cons] at hit
    rcases List.mem_append.mp hit with hit | hit
    · refine ⟨0, by simp, ?_, ?_⟩
      · have := lineItems_line (scanLineLevel lvl line) i line it hit
        omega
      · cases hc : classMatch line with
        | some v =>
          rw [lineItems_class (scanLineLevel lvl line) i line v hc] at hit
          rw [List.mem_singleton] at hit
          refine Or.inl ⟨v, hc, ?_⟩
          rw [hit]
        | none =>
          cases hk : keyMatch line with
          | some k =>
            rw [lineItems_key (scanLineLevel lvl line) i line k hc hk] at hit
            rw [List.mem_singleton] at hit
            refine Or.inr ⟨hc, k, hk, ?_⟩
            rw [hit]
            rfl
          | none =>
            rw [lineItems_plain (scanLineLevel lvl line) i line hc hk] at hit
            exact absurd hit (List.not_mem_nil it)
    · obtain ⟨n, hn, hline, hcase⟩ := ih (scanLineLevel lvl line) (i + 1) it hit
      refine ⟨n + 1, by simpa using hn, by omega, ?_⟩
      rw [List.getD_cons_succ]
      have harith : i + 1 + (n + 1) = i + 1 + 1 + n := by omega
      rw [harith]
      exact hcase

/-- C2: for every document the outline items are in strictly increasing
line order (hence at most one item per line, in document order), every
depth lies in [0, 2], and each item comes verbatim from its line —
declaration items always at depth 0, key items at depth equal to the
cumulative nesting depth after that line capped at 2. -/
theorem buildOutline_invariants (lines : List String) :
    (buildOutline lines).Chain' (fun a b => a.line < b.line) ∧
    (∀ it ∈ buildOutline lines, 0 ≤ it.depth ∧ it.depth ≤ 2) ∧
    (∀ it ∈ buildOutline lines,
      ∃ n, n < lines.length ∧ it.line = n + 1 ∧
        ((∃ v, classMatch (lines.getD n "") = some v ∧
            it = ⟨"_class = " ++ v, v, n + 1, 0⟩) ∨
         (classMatch (lines.getD n "") = none ∧
          ∃ k, keyMatch (lines.getD n "") = some k ∧
            it = ⟨k, k, n + 1, min (levelAfter lines (n + 1)) 2⟩))) := by
  have hprov := buildOutlineGo_provenance lines 0 0
  refine ⟨buildOutlineGo_chain lines 0 0, ?_, ?_⟩
  · intro it hit
    obtain ⟨n, hn, hline, hcase⟩ := hprov it hit
    rcases hcase with ⟨v, hv, heq⟩ | ⟨hc, k, hk, heq⟩
    · subst heq
      exact ⟨by norm_num, by norm_num⟩
    · subst heq
      have hnn : 0 ≤ levelAfterFrom 0 lines (n + 1) :=
        levelAfterFrom_nonneg lines (n + 1) 0 le_rfl
      exact ⟨le_min hnn (by norm_num), min_le_right _ _⟩
  · intro it hit
    obtain ⟨n, hn, hline, hcase⟩ := hprov it hit
    refine ⟨n, hn, by omega, ?_⟩
    have harith : 0 + 1 + n = n + 1 := by omega
    rw [harith] at hcase
    exact hcase

/-- C2 witness: the invariants evaluated on the scenario A document and its
single outline item. -/
theorem buildOutline_invariants_witness :
    (buildOutline demoDoc).Chain' (fun a b => a.line < b.line) ∧
    ((⟨"_class = Foo", "Foo", 2, 0⟩ : OutlineItem) ∈ buildOutline demoDoc →
      0 ≤ (⟨"_class = Foo", "Foo", 2, 0⟩ : OutlineItem).depth ∧
        (⟨"_class = Foo", "Foo", 2, 0⟩ : OutlineItem).depth ≤ 2) :=
  ⟨(buildOutline_invariants demoDoc).1,
   fun hmem => (buildOutline_invariants demoDoc).2.1 ⟨"_class = Foo", "Foo", 2, 0⟩ hmem⟩

end Viz
